import Mathlib

/-!
Shallow embedding of the CAN gateway core (`wp4`), covering the manipulation
engine (`wp4/core/manipulation.py`), the per-direction scheduling queue of
`BidirectionalGateway` (`wp4/core/gateway.py`), the latency statistics of
`DirectionStats` (`wp4/core/direction_stats.py`), and the settings path of
`GatewayManager` (`wp4/core/gateway_manager.py`) together with the CSV config
snapshot of `GatewayLogger` (`wp4/core/gateway_logger.py`).

Payloads are lists of naturals (each byte < 256 in practice), times and
millisecond quantities are rationals, Python ints that may be negative are
integers.  The Python priority queue (`heapq` over 5-tuples) is modelled by
its contents: `heappush` appends, `heappop` removes a least element under the
lexicographic tuple order, which is exactly the `heapq` contract.
-/

namespace CanGw

/-- `Operation` enum from `manipulation.py`. -/
inductive Operation where
  | set | and | or | xor | add | sub
deriving DecidableEq, Repr

/-- `Action` enum from `manipulation.py`. -/
inductive Action where
  | forward | drop | delay
deriving DecidableEq, Repr

/-- `ByteManipulation` dataclass: one byte operation. -/
structure ByteManipulation where
  byte_index : ℕ
  operation : Operation
  value : ℕ
deriving DecidableEq, Repr

/-- `ByteManipulation.apply`: mutate one byte of the payload.  The source
mutates a `bytearray` in place; here the updated list is returned.  Python's
`(original - value) & 0xFF` on ints is `(original - value) mod 256` with a
nonnegative result, i.e. `Int.emod`. -/
def ByteManipulation.apply (m : ByteManipulation) (data : List ℕ) : List ℕ :=
  if m.byte_index ≥ data.length then data
  else
    let original := data.getD m.byte_index 0
    let newByte : ℕ :=
      match m.operation with
      | .set => m.value &&& 0xFF
      | .and => original &&& m.value
      | .or => original ||| m.value
      | .xor => original ^^^ m.value
      | .add => (original + m.value) &&& 0xFF
      | .sub => (((original : ℤ) - (m.value : ℤ)) % 256).toNat
    data.set m.byte_index newByte

/-- `ManipulationRule` dataclass.  `direction` is one of `"0to1"`, `"1to0"`,
`"both"`; `can_id` is a Python int that may be `-1` (match any). -/
structure ManipulationRule where
  name : String
  can_id : ℤ
  can_id_mask : ℕ := 0x7FF
  direction : String := "both"
  action : Action := .forward
  manipulations : List ByteManipulation := []
  enabled : Bool := true
  extra_delay_ms : ℚ := 0
deriving DecidableEq, Repr

/-- `ManipulationRule.matches`: enabled, direction, then masked-ID check;
`can_id < 0` matches every ID.  For `can_id ≥ 0` the Python `can_id & mask`
equals `can_id.toNat &&& mask`. -/
def ManipulationRule.matches (r : ManipulationRule) (arb_id : ℕ)
    (msg_direction : String) : Bool :=
  if !r.enabled then false
  else if r.direction ≠ "both" && r.direction ≠ msg_direction then false
  else if r.can_id ≥ 0 then
    (arb_id &&& r.can_id_mask) == (r.can_id.toNat &&& r.can_id_mask)
  else true

/-- `ManipulationRule.apply`: DROP short-circuits, otherwise every byte
operation is applied in list order to a copy of the payload and the extra
delay is the rule's only when the action is DELAY. -/
def ManipulationRule.apply (r : ManipulationRule) (data : List ℕ) :
    Action × List ℕ × ℚ :=
  if r.action = .drop then (.drop, data, 0)
  else
    let modified := r.manipulations.foldl (fun d m => m.apply d) data
    (.forward, modified, if r.action = .delay then r.extra_delay_ms else 0)

/-- `ManipulationEngine` state: rule list (insertion order) and engine-wide
enabled flag. -/
structure ManipulationEngine where
  rules : List ManipulationRule
  enabled : Bool := true

/-- The `for rule in self._rules` loop body of `ManipulationEngine.process`:
first matching rule is applied. -/
def processRules (rules : List ManipulationRule) (arb_id : ℕ) (data : List ℕ)
    (direction : String) : Action × List ℕ × ℚ :=
  match rules with
  | [] => (.forward, data, 0)
  | r :: rs =>
    if r.matches arb_id direction then r.apply data
    else processRules rs arb_id data direction

/-- `ManipulationEngine.process`. -/
def ManipulationEngine.process (e : ManipulationEngine) (arb_id : ℕ)
    (data : List ℕ) (direction : String) : Action × List ℕ × ℚ :=
  if !e.enabled then (.forward, data, 0)
  else processRules e.rules arb_id data direction

/-- The rule-match condition exactly as the spec sentence states it: rule
enabled AND direction `both` or equal to the message direction AND
(`can_id < 0` or the masked IDs agree). -/
def specMatches (arb_id : ℕ) (direction : String) (r : ManipulationRule) :
    Bool :=
  r.enabled &&
    (r.direction == "both" || r.direction == direction) &&
    (decide (r.can_id < 0) ||
      (arb_id &&& r.can_id_mask) == (r.can_id.toNat &&& r.can_id_mask))

/-- The per-action result exactly as the claim for `ManipulationRule.apply`
states it: DROP returns the payload unchanged with no delay, DELAY applies
the byte operations and returns the rule's extra delay, FORWARD applies the
byte operations and returns no extra delay. -/
def ruleApplySpec (r : ManipulationRule) (data : List ℕ) :
    Action × List ℕ × ℚ :=
  match r.action with
  | .drop => (.drop, data, 0)
  | .delay =>
      (.forward, r.manipulations.foldl (fun d m => m.apply d) data,
        r.extra_delay_ms)
  | .forward =>
      (.forward, r.manipulations.foldl (fun d m => m.apply d) data, 0)

/-- One entry of a direction's priority queue, the Python 5-tuple
`(send_time, recv_time, arb_id, data, is_extended_id)` pushed by
`BidirectionalGateway._receive_loop`. -/
structure QueueEntry where
  sendTime : ℚ
  recvTime : ℚ
  arbId : ℕ
  data : List ℕ
  isExtended : Bool
deriving DecidableEq, Repr

/-- Three-way comparison on rationals (Python `<` / `==` / `>`). -/
def cmpQ (a b : ℚ) : Ordering :=
  if a < b then .lt else if a = b then .eq else .gt

/-- Three-way comparison on naturals. -/
def cmpN (a b : ℕ) : Ordering :=
  if a < b then .lt else if a = b then .eq else .gt

/-- Python `bool` comparison: `False < True`. -/
def cmpBool : Bool → Bool → Ordering
  | false, false => .eq
  | false, true => .lt
  | true, false => .gt
  | true, true => .eq

/-- Python `bytes` comparison: lexicographic, a strict prefix is smaller. -/
def cmpBytes : List ℕ → List ℕ → Ordering
  | [], [] => .eq
  | [], _ :: _ => .lt
  | _ :: _, [] => .gt
  | a :: as, b :: bs => (cmpN a b).then (cmpBytes as bs)

/-- Python tuple comparison on queue entries: lexicographic over
`(send_time, recv_time, arb_id, data, is_extended_id)`, which is the order
`heapq` uses on the 5-tuples pushed by the receive loop. -/
def entryCmp (x y : QueueEntry) : Ordering :=
  (cmpQ x.sendTime y.sendTime).then <|
    (cmpQ x.recvTime y.recvTime).then <|
      (cmpN x.arbId y.arbId).then <|
        (cmpBytes x.data y.data).then (cmpBool x.isExtended y.isExtended)

/-- `x` sorts no later than `y` in the heap order. -/
def entryLe (x y : QueueEntry) : Bool :=
  match entryCmp x y with
  | .gt => false
  | _ => true

/-- Select a least entry (under `entryLe`) among `x :: l`, returning it
together with the remaining entries. -/
def selectMin (x : QueueEntry) : List QueueEntry → QueueEntry × List QueueEntry
  | [] => (x, [])
  | y :: ys =>
    if entryLe x y then
      let p := selectMin x ys
      (p.1, y :: p.2)
    else
      let p := selectMin y ys
      (p.1, x :: p.2)

/-- `heapq.heappop`: remove and return a least entry; `none` on an empty
queue (where the Python call would raise). -/
def popMin : List QueueEntry → Option (QueueEntry × List QueueEntry)
  | [] => none
  | x :: xs => some (selectMin x xs)

theorem selectMin_length (x : QueueEntry) (l : List QueueEntry) :
    (selectMin x l).2.length = l.length := by
  induction l generalizing x with
  | nil => rfl
  | cons y ys ih =>
    by_cases h : entryLe x y = true <;> simp [selectMin, h, ih]

theorem popMin_length {q : List QueueEntry} {m : QueueEntry}
    {rest : List QueueEntry} (h : popMin q = some (m, rest)) :
    rest.length + 1 = q.length := by
  cases q with
  | nil => simp [popMin] at h
  | cons x xs =>
    simp only [popMin, Option.some.injEq] at h
    have hl := selectMin_length x xs
    rw [h] at hl
    simp [hl]

/-- `BidirectionalGateway.MAX_QUEUE_SIZE`. -/
def MAX_QUEUE_SIZE : ℕ := 10000

/-- The over-capacity eviction loop of `_receive_loop`:
`while stats.queue_size >= MAX_QUEUE_SIZE: heappop; dropped += 1`.
Returns the remaining queue and how many entries were popped (each pop
increments the direction's dropped counter once). -/
def evictLoop (q : List QueueEntry) : List QueueEntry × ℕ :=
  if MAX_QUEUE_SIZE ≤ q.length then
    match hp : popMin q with
    | some p =>
        let r := evictLoop p.2
        (r.1, r.2 + 1)
    | none => (q, 0)
  else (q, 0)
termination_by q.length
decreasing_by
  have := popMin_length hp
  omega

/-- The queue interaction of `_receive_loop` after the delay computation:
evict while at or over capacity, then `heappush` the new entry. -/
def receiveEnqueue (q : List QueueEntry) (e : QueueEntry) :
    List QueueEntry × ℕ :=
  let r := evictLoop q
  (r.1 ++ [e], r.2)

/-! Order facts for the tuple comparison, needed to reason about which entry
`heappop` removes. -/

theorem cmpQ_eq_lt {a b : ℚ} : cmpQ a b = .lt ↔ a < b := by
  unfold cmpQ
  split_ifs with h1 h2
  · simp [h1]
  · subst h2; simp [lt_irrefl]
  · have : b < a := lt_of_le_of_ne (le_of_not_lt h1) (fun hh => h2 hh.symm)
    simp [this.asymm]

theorem cmpQ_eq_eq {a b : ℚ} : cmpQ a b = .eq ↔ a = b := by
  unfold cmpQ
  split_ifs with h1 h2
  · simp [h1.ne]
  · simp [h2]
  · simp [h2]

theorem cmpQ_eq_gt {a b : ℚ} : cmpQ a b = .gt ↔ b < a := by
  unfold cmpQ
  split_ifs with h1 h2
  · simp [h1.asymm]
  · subst h2; simp [lt_irrefl]
  · have : b < a := lt_of_le_of_ne (le_of_not_lt h1) (fun hh => h2 hh.symm)
    simp [this]

theorem cmpQ_swap (a b : ℚ) : cmpQ b a = (cmpQ a b).swap := by
  cases h : cmpQ a b
  · rw [cmpQ_eq_lt] at h
    simp [Ordering.swap, cmpQ_eq_gt.mpr h]
  · rw [cmpQ_eq_eq] at h
    subst h
    simp [Ordering.swap, cmpQ_eq_eq.mpr rfl]
  · rw [cmpQ_eq_gt] at h
    simp [Ordering.swap, cmpQ_eq_lt.mpr h]

theorem cmpN_eq_lt {a b : ℕ} : cmpN a b = .lt ↔ a < b := by
  unfold cmpN
  split_ifs with h1 h2 <;> simp <;> omega

theorem cmpN_eq_eq {a b : ℕ} : cmpN a b = .eq ↔ a = b := by
  unfold cmpN
  split_ifs with h1 h2 <;> simp <;> omega

theorem cmpN_eq_gt {a b : ℕ} : cmpN a b = .gt ↔ b < a := by
  unfold cmpN
  split_ifs with h1 h2 <;> simp <;> omega

theorem cmpN_swap (a b : ℕ) : cmpN b a = (cmpN a b).swap := by
  cases h : cmpN a b
  · rw [cmpN_eq_lt] at h
    simp [Ordering.swap, cmpN_eq_gt.mpr h]
  · rw [cmpN_eq_eq] at h
    subst h
    simp [Ordering.swap, cmpN_eq_eq.mpr rfl]
  · rw [cmpN_eq_gt] at h
    simp [Ordering.swap, cmpN_eq_lt.mpr h]

theorem cmpBool_swap : ∀ a b, cmpBool b a = (cmpBool a b).swap := by decide

theorem cmpBool_eq_eq : ∀ a b, cmpBool a b = .eq ↔ a = b := by decide

theorem cmpBool_lt_trans :
    ∀ a b c, cmpBool a b = .lt → cmpBool b c = .lt → cmpBool a c = .lt := by
  decide

theorem cmpBytes_swap : ∀ a b : List ℕ, cmpBytes b a = (cmpBytes a b).swap := by
  intro a
  induction a with
  | nil => intro b; cases b <;> rfl
  | cons x xs ih =>
    intro b
    cases b with
    | nil => rfl
    | cons y ys =>
      simp [cmpBytes, Ordering.swap_then, cmpN_swap x y, ih ys]

theorem cmpBytes_eq_eq : ∀ a b : List ℕ, cmpBytes a b = .eq ↔ a = b := by
  intro a
  induction a with
  | nil => intro b; cases b <;> simp [cmpBytes]
  | cons x xs ih =>
    intro b
    cases b with
    | nil => simp [cmpBytes]
    | cons y ys =>
      simp [cmpBytes, Ordering.then_eq_eq, cmpN_eq_eq, ih ys]

theorem cmpBytes_lt_trans :
    ∀ a b c : List ℕ, cmpBytes a b = .lt → cmpBytes b c = .lt →
      cmpBytes a c = .lt := by
  intro a
  induction a with
  | nil =>
    intro b c h1 h2
    cases b with
    | nil => simp [cmpBytes] at h1
    | cons y ys =>
      cases c with
      | nil => simp [cmpBytes] at h2
      | cons z zs => simp [cmpBytes]
  | cons x xs ih =>
    intro b c h1 h2
    cases b with
    | nil => simp [cmpBytes] at h1
    | cons y ys =>
      cases c with
      | nil => simp [cmpBytes] at h2
      | cons z zs =>
        simp only [cmpBytes, Ordering.then_eq_lt] at h1 h2 ⊢
        rcases h1 with h1 | ⟨h1e, h1r⟩ <;> rcases h2 with h2 | ⟨h2e, h2r⟩
        · exact Or.inl (cmpN_eq_lt.mpr ((cmpN_eq_lt.mp h1).trans (cmpN_eq_lt.mp h2)))
        · rw [cmpN_eq_eq] at h2e
          exact Or.inl (h2e ▸ h1)
        · rw [cmpN_eq_eq] at h1e
          exact Or.inl (h1e ▸ h2)
        · rw [cmpN_eq_eq] at h1e h2e
          exact Or.inr ⟨by rw [cmpN_eq_eq]; omega, ih ys zs h1r h2r⟩

theorem entryCmp_swap (x y : QueueEntry) : entryCmp y x = (entryCmp x y).swap := by
  unfold entryCmp
  rw [cmpQ_swap, cmpQ_swap x.recvTime, cmpN_swap, cmpBytes_swap, cmpBool_swap,
    Ordering.swap_then, Ordering.swap_then, Ordering.swap_then,
    Ordering.swap_then]

theorem entryCmp_eq_eq {x y : QueueEntry} : entryCmp x y = .eq ↔ x = y := by
  unfold entryCmp
  cases x; cases y
  simp [Ordering.then_eq_eq, cmpQ_eq_eq, cmpN_eq_eq, cmpBytes_eq_eq,
    cmpBool_eq_eq, and_assoc]

theorem entryCmp_lt_trans {x y z : QueueEntry} (h1 : entryCmp x y = .lt)
    (h2 : entryCmp y z = .lt) : entryCmp x z = .lt := by
  unfold entryCmp at h1 h2 ⊢
  simp only [Ordering.then_eq_lt, Ordering.then_eq_eq] at h1 h2 ⊢
  rcases h1 with h1 | ⟨e1, h1⟩
  · rcases h2 with h2 | ⟨e2, h2⟩
    · exact Or.inl (cmpQ_eq_lt.mpr ((cmpQ_eq_lt.mp h1).trans (cmpQ_eq_lt.mp h2)))
    · rw [cmpQ_eq_eq] at e2
      exact Or.inl (e2 ▸ h1)
  · rcases h2 with h2 | ⟨e2, h2⟩
    · rw [cmpQ_eq_eq] at e1
      exact Or.inl (e1 ▸ h2)
    · rw [cmpQ_eq_eq] at e1 e2
      refine Or.inr ⟨by rw [cmpQ_eq_eq, e1, e2], ?_⟩
      rcases h1 with h1 | ⟨f1, h1⟩
      · rcases h2 with h2 | ⟨f2, h2⟩
        · exact Or.inl (cmpQ_eq_lt.mpr ((cmpQ_eq_lt.mp h1).trans (cmpQ_eq_lt.mp h2)))
        · rw [cmpQ_eq_eq] at f2
          exact Or.inl (f2 ▸ h1)
      · rcases h2 with h2 | ⟨f2, h2⟩
        · rw [cmpQ_eq_eq] at f1
          exact Or.inl (f1 ▸ h2)
        · rw [cmpQ_eq_eq] at f1 f2
          refine Or.inr ⟨by rw [cmpQ_eq_eq, f1, f2], ?_⟩
          rcases h1 with h1 | ⟨g1, h1⟩
          · rcases h2 with h2 | ⟨g2, h2⟩
            · exact Or.inl (cmpN_eq_lt.mpr
                ((cmpN_eq_lt.mp h1).trans (cmpN_eq_lt.mp h2)))
            · rw [cmpN_eq_eq] at g2
              exact Or.inl (g2 ▸ h1)
          · rcases h2 with h2 | ⟨g2, h2⟩
            · rw [cmpN_eq_eq] at g1
              exact Or.inl (g1 ▸ h2)
            · rw [cmpN_eq_eq] at g1 g2
              refine Or.inr ⟨by rw [cmpN_eq_eq, g1, g2], ?_⟩
              rcases h1 with h1 | ⟨k1, h1⟩
              · rcases h2 with h2 | ⟨k2, h2⟩
                · exact Or.inl (cmpBytes_lt_trans _ _ _ h1 h2)
                · rw [cmpBytes_eq_eq] at k2
                  exact Or.inl (k2 ▸ h1)
              · rcases h2 with h2 | ⟨k2, h2⟩
                · rw [cmpBytes_eq_eq] at k1
                  exact Or.inl (k1 ▸ h2)
                · rw [cmpBytes_eq_eq] at k1 k2
                  exact Or.inr ⟨by rw [cmpBytes_eq_eq, k1, k2],
                    cmpBool_lt_trans _ _ _ h1 h2⟩

theorem entryCmp_refl (x : QueueEntry) : entryCmp x x = .eq :=
  entryCmp_eq_eq.mpr rfl

theorem entryLe_iff {x y : QueueEntry} :
    entryLe x y = true ↔ entryCmp x y ≠ .gt := by
  unfold entryLe
  cases entryCmp x y <;> simp

theorem entryLe_refl (x : QueueEntry) : entryLe x x = true := by
  rw [entryLe_iff, entryCmp_refl]
  simp

theorem entryLe_total (x y : QueueEntry) :
    entryLe x y = true ∨ entryLe y x = true := by
  rw [entryLe_iff, entryLe_iff, entryCmp_swap x y]
  cases entryCmp x y <;> simp [Ordering.swap]

theorem entryLe_trans {x y z : QueueEntry} (h1 : entryLe x y = true)
    (h2 : entryLe y z = true) : entryLe x z = true := by
  rw [entryLe_iff] at h1 h2 ⊢
  cases hxy : entryCmp x y with
  | gt => exact absurd hxy h1
  | eq => rw [entryCmp_eq_eq] at hxy; rwa [hxy]
  | lt =>
    cases hyz : entryCmp y z with
    | gt => exact absurd hyz h2
    | eq => rw [entryCmp_eq_eq] at hyz; rw [← hyz]; simp [hxy]
    | lt => simp [entryCmp_lt_trans hxy hyz]

theorem entryLe_sendTime {x y : QueueEntry} (h : entryLe x y = true) :
    x.sendTime ≤ y.sendTime := by
  rw [entryLe_iff] at h
  by_contra hlt
  push_neg at hlt
  apply h
  unfold entryCmp
  rw [Ordering.then_eq_gt]
  exact Or.inl (cmpQ_eq_gt.mpr hlt)

theorem selectMin_min (x : QueueEntry) (l : List QueueEntry) :
    ∀ y ∈ x :: l, entryLe (selectMin x l).1 y = true := by
  induction l generalizing x with
  | nil =>
    intro y hy
    have hyx : y = x := by simpa using hy
    subst hyx
    simpa [selectMin] using entryLe_refl y
  | cons z zs ih =>
    intro y hy
    have hmx : entryLe (selectMin x zs).1 x = true :=
      ih x x (List.mem_cons_self x zs)
    have hmz : entryLe (selectMin z zs).1 z = true :=
      ih z z (List.mem_cons_self z zs)
    by_cases h : entryLe x z = true
    · simp only [selectMin, h, if_true]
      rcases List.mem_cons.mp hy with hyx | hy'
      · subst hyx; exact hmx
      · rcases List.mem_cons.mp hy' with hyz | hy''
        · subst hyz; exact entryLe_trans hmx h
        · exact ih x y (List.mem_cons_of_mem x hy'')
    · have hzx : entryLe z x = true := by
        rcases entryLe_total x z with ht | ht
        · exact absurd ht h
        · exact ht
      simp only [selectMin, h, if_false]
      rcases List.mem_cons.mp hy with hyx | hy'
      · subst hyx; exact entryLe_trans hmz hzx
      · rcases List.mem_cons.mp hy' with hyz | hy''
        · subst hyz; exact hmz
        · exact ih z y (List.mem_cons_of_mem z hy'')

theorem selectMin_rest_subset (x : QueueEntry) (l : List QueueEntry) :
    ∀ y ∈ (selectMin x l).2, y ∈ x :: l := by
  induction l generalizing x with
  | nil => intro y hy; simp [selectMin] at hy
  | cons z zs ih =>
    intro y hy
    by_cases h : entryLe x z = true
    · simp only [selectMin, h, if_true] at hy
      rcases List.mem_cons.mp hy with hyz | hy'
      · subst hyz; simp
      · have := ih x y hy'
        rcases List.mem_cons.mp this with hyx | hmem
        · subst hyx; simp
        · simp [hmem]
    · simp only [selectMin, h, if_false] at hy
      rcases List.mem_cons.mp hy with hyx | hy'
      · subst hyx; simp
      · have := ih z y hy'
        rcases List.mem_cons.mp this with hyz | hmem
        · subst hyz; simp
        · simp [hmem]

theorem popMin_min {q : List QueueEntry} {m : QueueEntry}
    {rest : List QueueEntry} (h : popMin q = some (m, rest)) :
    ∀ y ∈ q, entryLe m y = true := by
  cases q with
  | nil => simp [popMin] at h
  | cons x xs =>
    simp only [popMin, Option.some.injEq] at h
    intro y hy
    have := selectMin_min x xs y hy
    rwa [h] at this

theorem popMin_rest_subset {q : List QueueEntry} {m : QueueEntry}
    {rest : List QueueEntry} (h : popMin q = some (m, rest)) :
    ∀ y ∈ rest, y ∈ q := by
  cases q with
  | nil => simp [popMin] at h
  | cons x xs =>
    simp only [popMin, Option.some.injEq] at h
    intro y hy
    exact selectMin_rest_subset x xs y (by rw [h]; exact hy)

/-- The send-time computation of `_receive_loop`:
`send_time = max(recv_time + base_delay + jitter + rule_delay, recv_time)`
where the three delays are millisecond quantities divided by 1000. -/
def computeSendTime (recv_time delay_ms jitter_ms extra_delay_ms : ℚ) : ℚ :=
  max (recv_time + delay_ms / 1000 + jitter_ms / 1000 + extra_delay_ms / 1000)
    recv_time

/-- Result record of `DirectionStats.get_latency_stats` when samples exist
(the Python dict with non-`None` values). -/
structure LatencyStats where
  min : ℚ
  max : ℚ
  avg : ℚ
  p95 : ℚ
  p99 : ℚ
deriving DecidableEq, Repr

/-- `DirectionStats.get_latency_stats` over the latency window.  The window
is a deque with `maxlen=100`, so `n ≤ 100`; for such `n` the Python float
expressions `int(n * 0.95)` and `int(n * 0.99)` agree with the exact floors
`95 * n / 100` and `99 * n / 100` used here (the IEEE-754 products round to
the correctly-floored values for every `n ≤ 100`).  `samples[-1]` is index
`n - 1`; all indices are in range, so `getD _ 0` equals the Python access. -/
def get_latency_stats (samples : List ℚ) : Option LatencyStats :=
  if samples.isEmpty then none
  else
    let sorted := List.insertionSort (· ≤ ·) samples
    let n := samples.length
    some
      { min := sorted.getD 0 0
        max := sorted.getD (n - 1) 0
        avg := sorted.sum / n
        p95 := sorted.getD (95 * n / 100) 0
        p99 := sorted.getD (99 * n / 100) 0 }

/-- Nearest-rank percentile exactly as the spec sentence states it: the
`⌈p·n/100⌉`-th smallest sample of the window (1-based), i.e. zero-based
index `⌈p·n/100⌉ - 1` into the sorted copy. -/
def nearestRank (samples : List ℚ) (p : ℕ) : ℚ :=
  (List.insertionSort (· ≤ ·) samples).getD
    ((p * samples.length + 99) / 100 - 1) 0

/-- The mutable scalar triple of a running `BidirectionalGateway`
(`_delay_ms`, `_loss_pct`, `_jitter_ms`); the `jitter_ms` property setter
clamps with `max(0.0, value)`. -/
structure GatewayParams where
  delay_ms : ℚ
  loss_pct : ℚ
  jitter_ms : ℚ
deriving DecidableEq, Repr

/-- `GatewayConfig` dataclass of `gateway_logger.py`: the configuration
snapshot written into every CSV row. -/
structure LoggerConfig where
  delay_ms : ℚ
  jitter_ms : ℚ
  loss_pct : ℚ
deriving DecidableEq, Repr

/-- `GatewayLogger.set_gateway_config`: replaces the snapshot. -/
def set_gateway_config (delay_ms jitter_ms loss_pct : ℚ) : LoggerConfig :=
  { delay_ms := delay_ms, jitter_ms := jitter_ms, loss_pct := loss_pct }

/-- The state touched by `GatewayManager.update_settings`: the stored
`GatewayConfig` scalars, the running gateway's scalars (`none` when the
gateway is not running), and the `GatewayLogger._config` snapshot.  Event
publication on the bus carries the changed raw values and is not modelled. -/
structure ManagerState where
  config : GatewayParams
  gateway : Option GatewayParams
  loggerConfig : LoggerConfig
deriving DecidableEq, Repr

/-- `GatewayManager.update_settings`: each non-`None` argument is written to
the stored config and, when running, to the gateway (whose `jitter_ms`
setter clamps negatives to zero).  The source contains no call into
`GatewayLogger.set_gateway_config`, so the logger snapshot is untouched. -/
def update_settings (s : ManagerState)
    (delay_ms loss_pct jitter_ms : Option ℚ) : ManagerState :=
  let s1 := match delay_ms with
    | some v =>
        { s with config := { s.config with delay_ms := v }
                 gateway := s.gateway.map fun g => { g with delay_ms := v } }
    | none => s
  let s2 := match loss_pct with
    | some v =>
        { s1 with config := { s1.config with loss_pct := v }
                  gateway := s1.gateway.map fun g => { g with loss_pct := v } }
    | none => s1
  match jitter_ms with
  | some v =>
      { s2 with config := { s2.config with jitter_ms := v }
                gateway := s2.gateway.map fun g =>
                  { g with jitter_ms := max 0 v } }
  | none => s2

/-! Facts about the eviction loop. -/

theorem evictLoop_subset_aux :
    ∀ (n : ℕ) (q : List QueueEntry), q.length ≤ n →
      ∀ y ∈ (evictLoop q).1, y ∈ q := by
  intro n
  induction n with
  | zero =>
    intro q hle y hy
    have hq : q = [] := List.eq_nil_of_length_eq_zero (Nat.le_zero.mp hle)
    subst hq
    rw [evictLoop] at hy
    simp [MAX_QUEUE_SIZE] at hy
  | succ n ih =>
    intro q hle y hy
    rw [evictLoop] at hy
    by_cases hc : MAX_QUEUE_SIZE ≤ q.length
    · rw [if_pos hc] at hy
      cases hp : popMin q with
      | none => rw [hp] at hy; exact hy
      | some p =>
        rw [hp] at hy
        simp only at hy
        have hpm : popMin q = some (p.1, p.2) := by rw [hp]
        have hlen : p.2.length + 1 = q.length := popMin_length hpm
        have hle2 : p.2.length ≤ n := by omega
        exact popMin_rest_subset (by rw [hp] : popMin q = some (p.1, p.2)) y
          (ih p.2 hle2 y hy)
    · rw [if_neg hc] at hy
      exact hy

theorem evictLoop_subset (q : List QueueEntry) :
    ∀ y ∈ (evictLoop q).1, y ∈ q :=
  evictLoop_subset_aux q.length q le_rfl

theorem evictLoop_of_lt {q : List QueueEntry}
    (h : q.length < MAX_QUEUE_SIZE) : evictLoop q = (q, 0) := by
  rw [evictLoop]
  simp [Nat.not_le.mpr h]

theorem evictLoop_of_eq {q : List QueueEntry}
    (h : q.length = MAX_QUEUE_SIZE) :
    ∃ m rest, popMin q = some (m, rest) ∧ evictLoop q = (rest, 1) := by
  cases q with
  | nil => simp [MAX_QUEUE_SIZE] at h
  | cons x xs =>
    refine ⟨(selectMin x xs).1, (selectMin x xs).2, rfl, ?_⟩
    rw [evictLoop, if_pos (le_of_eq h.symm)]
    have hlen : (selectMin x xs).2.length < MAX_QUEUE_SIZE := by
      have := selectMin_length x xs
      simp only [List.length_cons] at h
      omega
    simp only [popMin]
    rw [evictLoop_of_lt hlen]

/-! Rule matching: the source's early-return chain equals the spec's single
conjunction. -/

theorem matches_eq_specMatches (r : ManipulationRule) (arb : ℕ) (dir : String) :
    r.matches arb dir = specMatches arb dir r := by
  unfold ManipulationRule.matches specMatches
  cases he : r.enabled
  · simp
  · by_cases hd1 : r.direction = "both"
    · by_cases hc : 0 ≤ r.can_id
      · simp [hd1, hc, not_lt.mpr hc]
      · simp [hd1, hc, not_le.mp hc]
    · by_cases hd2 : r.direction = dir
      · by_cases hc : 0 ≤ r.can_id
        · simp [hd1, hd2, hc, not_lt.mpr hc]
        · simp [hd1, hd2, hc, not_le.mp hc]
      · simp [hd1, hd2]

theorem processRules_eq_find (rules : List ManipulationRule) (arb : ℕ)
    (data : List ℕ) (dir : String) :
    processRules rules arb data dir =
      match rules.find? (specMatches arb dir) with
      | some r => r.apply data
      | none => (.forward, data, 0) := by
  induction rules with
  | nil => rfl
  | cons r rs ih =>
    unfold processRules
    rw [matches_eq_specMatches]
    by_cases hm : specMatches arb dir r = true
    · simp [List.find?, hm]
    · simp only [Bool.not_eq_true] at hm
      simp [List.find?, hm, ih]

/-- C1: with the engine-wide enabled flag true, `ManipulationEngine.process`
returns the result of applying the first rule (in insertion order) that
matches, where a rule matches iff it is enabled, its direction is `both` or
the message direction, and either `can_id < 0` or the masked IDs agree; with
no matching rule it returns `(FORWARD, payload, 0 ms)`. -/
theorem process_first_match_spec (e : ManipulationEngine) (arb : ℕ)
    (data : List ℕ) (dir : String) (h : e.enabled = true) :
    e.process arb data dir =
      match e.rules.find? (specMatches arb dir) with
      | some r => r.apply data
      | none => (.forward, data, 0) := by
  unfold ManipulationEngine.process
  rw [h]
  simpa using processRules_eq_find e.rules arb data dir

/-- Witness for C1 at a concrete engine: two rules both matching ID `0x123`,
the first one (a DROP) wins. -/
theorem process_first_match_spec_witness :
    (ManipulationEngine.mk
        [{ name := "r1", can_id := 0x123, action := .drop },
         { name := "r2", can_id := -1, action := .forward }] true).enabled
      = true ∧
    (ManipulationEngine.mk
        [{ name := "r1", can_id := 0x123, action := .drop },
         { name := "r2", can_id := -1, action := .forward }] true).process
        0x123 [1, 2] "0to1" =
      match
        (ManipulationEngine.mk
            [{ name := "r1", can_id := 0x123, action := .drop },
             { name := "r2", can_id := -1, action := .forward }]
            true).rules.find? (specMatches 0x123 "0to1") with
      | some r => r.apply [1, 2]
      | none => (.forward, [1, 2], 0) :=
  ⟨rfl, process_first_match_spec _ 0x123 [1, 2] "0to1" rfl⟩

/-- C2 (invariant I1): the receive path computes
`send_time = max(recv_time + base_delay + jitter + rule_delay, recv_time)`,
so `recv_time ≤ send_time` for the pushed entry for every delay, jitter draw
and rule extra delay (also when their sum is negative), and enqueueing
preserves `send_time ≥ recv_time` for every entry held in the queue. -/
theorem queue_entries_send_ge_recv (q : List QueueEntry)
    (recv delay jitter extra : ℚ) (arb : ℕ) (data : List ℕ) (ext : Bool)
    (hInv : ∀ x ∈ q, x.recvTime ≤ x.sendTime) :
    recv ≤ computeSendTime recv delay jitter extra ∧
    ∀ y ∈ (receiveEnqueue q
        ⟨computeSendTime recv delay jitter extra, recv, arb, data, ext⟩).1,
      y.recvTime ≤ y.sendTime := by
  refine ⟨le_max_right _ _, ?_⟩
  intro y hy
  unfold receiveEnqueue at hy
  simp only [List.mem_append, List.mem_singleton] at hy
  rcases hy with hy | rfl
  · exact hInv y (evictLoop_subset q y hy)
  · exact le_max_right _ _

/-- Witness for C2: a one-entry queue and a negative net delay
(`delay + jitter + extra < 0`); the clamped send time still dominates. -/
theorem queue_entries_send_ge_recv_witness :
    (∀ x ∈ [(⟨7, 5, 1, [], false⟩ : QueueEntry)], x.recvTime ≤ x.sendTime) ∧
    (100 ≤ computeSendTime 100 1 (-30) 2 ∧
      ∀ y ∈ (receiveEnqueue [(⟨7, 5, 1, [], false⟩ : QueueEntry)]
          ⟨computeSendTime 100 1 (-30) 2, 100, 9, [1], true⟩).1,
        y.recvTime ≤ y.sendTime) :=
  ⟨by decide,
    queue_entries_send_ge_recv [⟨7, 5, 1, [], false⟩] 100 1 (-30) 2 9 [1] true
      (by decide)⟩

/-- C3: starting from a queue within the 10 000-entry bound, the receive
path keeps it within the bound: below capacity the new entry is simply
pushed, and exactly at capacity one eldest-scheduled entry (a heap minimum,
hence of least `send_time`) is popped and counted as dropped before the
push. -/
theorem queue_capacity_bound (q : List QueueEntry) (e : QueueEntry)
    (h : q.length ≤ MAX_QUEUE_SIZE) :
    (receiveEnqueue q e).1.length ≤ MAX_QUEUE_SIZE ∧
    (q.length < MAX_QUEUE_SIZE → receiveEnqueue q e = (q ++ [e], 0)) ∧
    (q.length = MAX_QUEUE_SIZE →
      ∃ m rest, popMin q = some (m, rest) ∧
        receiveEnqueue q e = (rest ++ [e], 1) ∧
        ∀ x ∈ q, m.sendTime ≤ x.sendTime) := by
  rcases lt_or_eq_of_le h with hlt | heq
  · refine ⟨?_, fun _ => ?_, fun habs => absurd habs (ne_of_lt hlt)⟩
    · unfold receiveEnqueue
      rw [evictLoop_of_lt hlt]
      simp only [List.length_append, List.length_singleton]
      omega
    · unfold receiveEnqueue
      rw [evictLoop_of_lt hlt]
  · obtain ⟨m, rest, hp, hev⟩ := evictLoop_of_eq heq
    have hrlen : rest.length + 1 = q.length := popMin_length hp
    refine ⟨?_, fun habs => absurd heq (ne_of_lt habs), fun _ => ?_⟩
    · unfold receiveEnqueue
      rw [hev]
      simp only [List.length_append, List.length_singleton]
      omega
    · refine ⟨m, rest, hp, ?_, fun x hx => entryLe_sendTime (popMin_min hp x hx)⟩
      unfold receiveEnqueue
      rw [hev]

/-- Witness for C3 at an empty queue (within the bound). -/
theorem queue_capacity_bound_witness :
    ([] : List QueueEntry).length ≤ MAX_QUEUE_SIZE ∧
    ((receiveEnqueue [] (⟨3, 1, 5, [7], false⟩ : QueueEntry)).1.length ≤
        MAX_QUEUE_SIZE ∧
      (([] : List QueueEntry).length < MAX_QUEUE_SIZE →
        receiveEnqueue [] (⟨3, 1, 5, [7], false⟩ : QueueEntry) =
          ([⟨3, 1, 5, [7], false⟩], 0)) ∧
      (([] : List QueueEntry).length = MAX_QUEUE_SIZE →
        ∃ m rest, popMin [] = some (m, rest) ∧
          receiveEnqueue [] (⟨3, 1, 5, [7], false⟩ : QueueEntry) =
            (rest ++ [⟨3, 1, 5, [7], false⟩], 1) ∧
          ∀ x ∈ ([] : List QueueEntry), m.sendTime ≤ x.sendTime)) :=
  ⟨by decide,
    by simpa using
      queue_capacity_bound [] (⟨3, 1, 5, [7], false⟩ : QueueEntry) (by decide)⟩

/-- Counterexample to C5 as stated: two entries with equal `send_time` are
pushed in the order `A` then `B`, yet the pop returns `B`, because `heapq`
orders the 5-tuples by `recv_time` (then `arb_id`, payload, extended flag)
after `send_time` — there is no insertion sequence number. -/
theorem pop_not_insertion_order :
    (receiveEnqueue
        (receiveEnqueue [] (⟨10, 5, 2, [1], false⟩ : QueueEntry)).1
        (⟨10, 3, 1, [], false⟩ : QueueEntry)).1 =
      [⟨10, 5, 2, [1], false⟩, ⟨10, 3, 1, [], false⟩] ∧
    popMin [(⟨10, 5, 2, [1], false⟩ : QueueEntry), ⟨10, 3, 1, [], false⟩] =
      some (⟨10, 3, 1, [], false⟩, [⟨10, 5, 2, [1], false⟩]) ∧
    (⟨10, 5, 2, [1], false⟩ : QueueEntry).sendTime =
      (⟨10, 3, 1, [], false⟩ : QueueEntry).sendTime ∧
    (⟨10, 5, 2, [1], false⟩ : QueueEntry) ≠ ⟨10, 3, 1, [], false⟩ := by
  refine ⟨?_, ?_, rfl, by decide⟩
  · have e0 : evictLoop ([] : List QueueEntry) = ([], 0) :=
      evictLoop_of_lt (by decide)
    have e1 : evictLoop [(⟨10, 5, 2, [1], false⟩ : QueueEntry)] =
        ([⟨10, 5, 2, [1], false⟩], 0) := evictLoop_of_lt (by decide)
    simp [receiveEnqueue, e0, e1]
  · decide

/-- C5 amended: the sender pops a least entry under the lexicographic order
on the whole tuple `(send_time, recv_time, arb_id, data, is_extended_id)`;
among entries with equal `send_time` the tie is broken by ascending
`recv_time`, then `arb_id`, payload bytes and the extended flag — not by
insertion order. -/
theorem pop_returns_heap_minimum (q : List QueueEntry) (m : QueueEntry)
    (rest : List QueueEntry) (h : popMin q = some (m, rest)) :
    ∀ x ∈ q, entryLe m x = true ∧ m.sendTime ≤ x.sendTime := by
  intro x hx
  have hle := popMin_min h x hx
  exact ⟨hle, entryLe_sendTime hle⟩

/-- Witness for the amended C5 at a concrete two-entry queue. -/
theorem pop_returns_heap_minimum_witness :
    popMin [(⟨10, 5, 2, [1], false⟩ : QueueEntry), ⟨10, 3, 1, [], false⟩] =
      some (⟨10, 3, 1, [], false⟩, [⟨10, 5, 2, [1], false⟩]) ∧
    ∀ x ∈ [(⟨10, 5, 2, [1], false⟩ : QueueEntry), ⟨10, 3, 1, [], false⟩],
      entryLe ⟨10, 3, 1, [], false⟩ x = true ∧
        (⟨10, 3, 1, [], false⟩ : QueueEntry).sendTime ≤ x.sendTime :=
  ⟨by decide,
    pop_returns_heap_minimum
      [⟨10, 5, 2, [1], false⟩, ⟨10, 3, 1, [], false⟩]
      ⟨10, 3, 1, [], false⟩ [⟨10, 5, 2, [1], false⟩] (by decide)⟩

/-! Latency statistics. -/

/-- Counterexample to C6 as stated: on the 20-sample window `1, …, 20` the
code returns `sorted[int(20 * 0.95)] = sorted[19] = 20` as p95, while the
nearest-rank p95 is the `⌈0.95·20⌉ = 19`-th smallest sample, `19`. -/
theorem latency_p95_not_nearest_rank :
    (get_latency_stats
          [1, 2, 3, 4, 5, 6, 7, 8, 9, 10,
            11, 12, 13, 14, 15, 16, 17, 18, 19, 20]).map LatencyStats.p95 =
        some 20 ∧
      nearestRank
          [1, 2, 3, 4, 5, 6, 7, 8, 9, 10,
            11, 12, 13, 14, 15, 16, 17, 18, 19, 20] 95 = 19 ∧
      (20 : ℚ) ≠ 19 := by
  refine ⟨by decide, by decide, by norm_num⟩

/-- C6 amended: for a non-empty window, `get_latency_stats` returns the
window minimum, maximum and mean, and the p95 / p99 taken from the sorted
copy at the zero-based floor indices `⌊0.95·n⌋` and `⌊0.99·n⌋` (each one a
window sample) — which is one rank above nearest-rank whenever `0.95·n`
(resp. `0.99·n`) is an integer; for an empty window it returns no
statistics. -/
theorem latency_stats_characterization (l : List ℚ) (h : l ≠ []) :
    ∃ s, get_latency_stats l = some s ∧
      s.min ∈ l ∧ (∀ x ∈ l, s.min ≤ x) ∧
      s.max ∈ l ∧ (∀ x ∈ l, x ≤ s.max) ∧
      s.avg = l.sum / l.length ∧
      s.p95 = (List.insertionSort (· ≤ ·) l).getD (95 * l.length / 100) 0 ∧
      s.p99 = (List.insertionSort (· ≤ ·) l).getD (99 * l.length / 100) 0 ∧
      s.p95 ∈ l ∧ s.p99 ∈ l ∧
      get_latency_stats ([] : List ℚ) = none := by
  have hn : 0 < l.length := List.length_pos.mpr h
  have hperm := List.perm_insertionSort (· ≤ ·) l
  have hsorted := List.sorted_insertionSort (· ≤ ·) l
  have hlen : (List.insertionSort (· ≤ ·) l).length = l.length :=
    List.length_insertionSort (· ≤ ·) l
  have hidx0 : 0 < (List.insertionSort (· ≤ ·) l).length := by omega
  have hidxLast : l.length - 1 < (List.insertionSort (· ≤ ·) l).length := by
    omega
  have hidx95 : 95 * l.length / 100 < (List.insertionSort (· ≤ ·) l).length := by
    rw [hlen]
    exact (Nat.div_lt_iff_lt_mul (by norm_num)).mpr (by omega)
  have hidx99 : 99 * l.length / 100 < (List.insertionSort (· ≤ ·) l).length := by
    rw [hlen]
    exact (Nat.div_lt_iff_lt_mul (by norm_num)).mpr (by omega)
  have hne : ¬(l.isEmpty = true) := by
    cases l with
    | nil => exact absurd rfl h
    | cons a t => simp
  have hstats : get_latency_stats l =
      some
        { min := (List.insertionSort (· ≤ ·) l).getD 0 0
          max := (List.insertionSort (· ≤ ·) l).getD (l.length - 1) 0
          avg := (List.insertionSort (· ≤ ·) l).sum / l.length
          p95 := (List.insertionSort (· ≤ ·) l).getD (95 * l.length / 100) 0
          p99 :=
            (List.insertionSort (· ≤ ·) l).getD (99 * l.length / 100) 0 } := by
    unfold get_latency_stats
    rw [if_neg hne]
  have hMemOf : ∀ i (hi : i < (List.insertionSort (· ≤ ·) l).length),
      (List.insertionSort (· ≤ ·) l).getD i 0 ∈ l := by
    intro i hi
    rw [List.getD_eq_get _ _ hi]
    exact hperm.mem_iff.mp (List.get_mem _ _ _)
  refine ⟨_, hstats, hMemOf 0 hidx0, ?_, hMemOf _ hidxLast, ?_, ?_, rfl, rfl,
    hMemOf _ hidx95, hMemOf _ hidx99, rfl⟩
  · intro x hx
    obtain ⟨i, hi⟩ := List.mem_iff_get.mp (hperm.symm.subset hx)
    rw [List.getD_eq_get _ _ hidx0, ← hi]
    exact hsorted.rel_get_of_le (by simp [Fin.le_def])
  · intro x hx
    obtain ⟨i, hi⟩ := List.mem_iff_get.mp (hperm.symm.subset hx)
    rw [List.getD_eq_get _ _ hidxLast, ← hi]
    refine hsorted.rel_get_of_le ?_
    rw [Fin.le_def]
    have := i.isLt
    simp only
    omega
  · rw [hperm.sum_eq]

/-- Witness for the amended C6 at the singleton window `[5]`. -/
theorem latency_stats_characterization_witness :
    ([5] : List ℚ) ≠ [] ∧
    (∃ s, get_latency_stats [(5 : ℚ)] = some s ∧
      s.min ∈ [(5 : ℚ)] ∧ (∀ x ∈ [(5 : ℚ)], s.min ≤ x) ∧
      s.max ∈ [(5 : ℚ)] ∧ (∀ x ∈ [(5 : ℚ)], x ≤ s.max) ∧
      s.avg = [(5 : ℚ)].sum / ([(5 : ℚ)].length : ℕ) ∧
      s.p95 =
        (List.insertionSort (· ≤ ·) [(5 : ℚ)]).getD
          (95 * [(5 : ℚ)].length / 100) 0 ∧
      s.p99 =
        (List.insertionSort (· ≤ ·) [(5 : ℚ)]).getD
          (99 * [(5 : ℚ)].length / 100) 0 ∧
      s.p95 ∈ [(5 : ℚ)] ∧ s.p99 ∈ [(5 : ℚ)] ∧
      get_latency_stats ([] : List ℚ) = none) :=
  ⟨by decide, latency_stats_characterization [5] (by decide)⟩

/-! Byte-operation claims. -/

/-- The sequential in-place application of a rule's byte operations (the
`for manip in self.manipulations` loop of `ManipulationRule.apply`). -/
def applyByteOps (ops : List ByteManipulation) (data : List ℕ) : List ℕ :=
  ops.foldl (fun d m => m.apply d) data

/-- C7: `ManipulationRule.apply` returns, per action: DROP — the unchanged
payload with 0 ms (byte_ops short-circuited); DELAY — the payload with every
byte_op applied in list order and the rule's `extra_delay_ms`; FORWARD — the
payload with every byte_op applied in list order and 0 ms. -/
theorem rule_apply_action_spec (r : ManipulationRule) (data : List ℕ) :
    r.apply data = ruleApplySpec r data := by
  unfold ManipulationRule.apply ruleApplySpec
  cases r.action <;> simp

theorem apply_getD_at (m : ByteManipulation) (data : List ℕ)
    (h : m.byte_index < data.length) :
    (m.apply data).getD m.byte_index 0 =
      match m.operation with
      | .set => m.value &&& 0xFF
      | .and => data.getD m.byte_index 0 &&& m.value
      | .or => data.getD m.byte_index 0 ||| m.value
      | .xor => data.getD m.byte_index 0 ^^^ m.value
      | .add => (data.getD m.byte_index 0 + m.value) &&& 0xFF
      | .sub =>
          (((data.getD m.byte_index 0 : ℤ) - (m.value : ℤ)) % 256).toNat := by
  unfold ByteManipulation.apply
  rw [if_neg (by omega)]
  rw [List.getD_eq_getElem _ _ (by simpa using h)]
  simp

/-- C8: byte operations are applied in list order (application over a
concatenation composes); an operation whose index is at or beyond the
payload length is a silent no-op; SET stores `value mod 256`, ADD stores
`(original + value) mod 256`, SUB stores `(original − value) mod 256`, so
the written byte lies in `0..=255`. -/
theorem byte_ops_order_and_wraparound (m : ByteManipulation) (data : List ℕ)
    (ops1 ops2 : List ByteManipulation) :
    (data.length ≤ m.byte_index → m.apply data = data) ∧
    applyByteOps (ops1 ++ ops2) data =
      applyByteOps ops2 (applyByteOps ops1 data) ∧
    (m.byte_index < data.length →
      (m.operation = .set →
        (m.apply data).getD m.byte_index 0 = m.value % 256) ∧
      (m.operation = .add →
        (m.apply data).getD m.byte_index 0 =
          (data.getD m.byte_index 0 + m.value) % 256) ∧
      (m.operation = .sub →
        ((m.apply data).getD m.byte_index 0 : ℤ) =
          ((data.getD m.byte_index 0 : ℤ) - (m.value : ℤ)) % 256) ∧
      (m.operation = .set ∨ m.operation = .add ∨ m.operation = .sub →
        (m.apply data).getD m.byte_index 0 < 256)) := by
  have h255 : (0xFF : ℕ) = 2 ^ 8 - 1 := by norm_num
  refine ⟨?_, ?_, ?_⟩
  · intro h
    unfold ByteManipulation.apply
    rw [if_pos (by omega)]
  · simp [applyByteOps, List.foldl_append]
  · intro h
    have hd := apply_getD_at m data h
    refine ⟨?_, ?_, ?_, ?_⟩
    · intro hop
      rw [hd, hop]
      simp only [h255, Nat.and_pow_two_sub_one_eq_mod]
    · intro hop
      rw [hd, hop]
      simp only [h255, Nat.and_pow_two_sub_one_eq_mod]
    · intro hop
      rw [hd, hop]
      simp only
      exact Int.toNat_of_nonneg (Int.emod_nonneg _ (by norm_num))
    · intro hop
      rcases hop with hop | hop | hop <;> rw [hd, hop] <;> simp only
      · rw [h255, Nat.and_pow_two_sub_one_eq_mod]
        exact Nat.mod_lt _ (by norm_num)
      · rw [h255, Nat.and_pow_two_sub_one_eq_mod]
        exact Nat.mod_lt _ (by norm_num)
      · have h1 : (0 : ℤ) ≤
            ((data.getD m.byte_index 0 : ℤ) - (m.value : ℤ)) % 256 :=
          Int.emod_nonneg _ (by norm_num)
        have h2 : ((data.getD m.byte_index 0 : ℤ) - (m.value : ℤ)) % 256 <
            256 := Int.emod_lt_of_pos _ (by norm_num)
        omega

/-- Witness for C8 at a SUB that wraps: `0 - 1 ≡ 255 (mod 256)`. -/
theorem byte_ops_order_and_wraparound_witness :
    (([0] : List ℕ).length ≤
        (ByteManipulation.mk 0 .sub 1).byte_index → False) ∨
    (((ByteManipulation.mk 0 .sub 1).byte_index < ([0] : List ℕ).length) ∧
      ((ByteManipulation.mk 0 .sub 1).operation = .sub →
        (((ByteManipulation.mk 0 .sub 1).apply [0]).getD
            (ByteManipulation.mk 0 .sub 1).byte_index 0 : ℤ) =
          ((([0] : List ℕ).getD (ByteManipulation.mk 0 .sub 1).byte_index 0 :
                ℤ) -
              ((ByteManipulation.mk 0 .sub 1).value : ℤ)) % 256)) :=
  Or.inr ⟨by decide,
    ((byte_ops_order_and_wraparound (ByteManipulation.mk 0 .sub 1) [0] []
          []).2.2 (by decide)).2.2.1⟩

/-- C10: a byte operation with `byte_index ≤ 7` and `value ≤ 255` is safe on
every payload: out-of-range indices leave the payload entirely unchanged,
in-range application changes only the targeted byte, preserves the length,
and keeps every byte below 256 (so the `bytearray` write cannot raise). -/
theorem byte_apply_frame (m : ByteManipulation) (data : List ℕ)
    (h7 : m.byte_index ≤ 7) (hv : m.value ≤ 255) :
    (data.length ≤ m.byte_index → m.apply data = data) ∧
    (m.apply data).length = data.length ∧
    (∀ j, j < data.length → j ≠ m.byte_index →
      (m.apply data).getD j 0 = data.getD j 0) ∧
    ((∀ b ∈ data, b < 256) → ∀ b ∈ m.apply data, b < 256) := by
  by_cases hidx : m.byte_index ≥ data.length
  · have happ : m.apply data = data := by
      unfold ByteManipulation.apply
      rw [if_pos hidx]
    exact ⟨fun _ => happ, by rw [happ], fun j _ _ => by rw [happ],
      fun hb => by rw [happ]; exact hb⟩
  · push_neg at hidx
    have happ : ∃ v, m.apply data = data.set m.byte_index v := by
      unfold ByteManipulation.apply
      rw [if_neg (by omega)]
      exact ⟨_, rfl⟩
    obtain ⟨v, hv'⟩ := happ
    refine ⟨fun hc => absurd hidx (not_lt.mpr hc), by rw [hv']; simp, ?_, ?_⟩
    · intro j hj hne
      rw [hv', List.getD_eq_getElem _ _ (by simpa using hj),
        List.getD_eq_getElem _ _ hj]
      exact List.getElem_set_ne (Ne.symm hne) (by simpa using hj)
    · intro hb b hbm
      have horig : data.getD m.byte_index 0 < 256 := by
        rw [List.getD_eq_getElem _ _ hidx]
        exact hb _ (List.getElem_mem hidx)
      have hnew : ∀ w ∈ m.apply data, w ∈ data ∨
          w = ((m.apply data).getD m.byte_index 0) := by
        intro w hw
        rw [hv'] at hw
        rcases List.mem_or_eq_of_mem_set hw with hmem | rfl
        · exact Or.inl hmem
        · right
          rw [hv', List.getD_eq_getElem _ _ (by simpa using hidx)]
          simp
      rcases hnew b hbm with hmem | rfl
      · exact hb b hmem
      · rw [apply_getD_at m data hidx]
        have h256 : (256 : ℕ) = 2 ^ 8 := by norm_num
        cases hop : m.operation <;> simp only
        · have : m.value &&& 0xFF ≤ 0xFF := Nat.and_le_right
          omega
        · have : data.getD m.byte_index 0 &&& m.value ≤
              data.getD m.byte_index 0 := Nat.and_le_left
          omega
        · rw [h256]
          exact Nat.or_lt_two_pow (by omega) (by omega)
        · rw [h256]
          exact Nat.xor_lt_two_pow (by omega) (by omega)
        · have : (data.getD m.byte_index 0 + m.value) &&& 0xFF ≤ 0xFF :=
            Nat.and_le_right
          omega
        · have h1 : (0 : ℤ) ≤
              ((data.getD m.byte_index 0 : ℤ) - (m.value : ℤ)) % 256 :=
            Int.emod_nonneg _ (by norm_num)
          have h2 : ((data.getD m.byte_index 0 : ℤ) - (m.value : ℤ)) % 256 <
              256 := Int.emod_lt_of_pos _ (by norm_num)
          omega

/-- Witness for C10 at a concrete in-range XOR. -/
theorem byte_apply_frame_witness :
    (ByteManipulation.mk 1 .xor 0xFF).byte_index ≤ 7 ∧
    (ByteManipulation.mk 1 .xor 0xFF).value ≤ 255 ∧
    (([10, 20, 30] : List ℕ).length ≤ 1 →
      (ByteManipulation.mk 1 .xor 0xFF).apply [10, 20, 30] = [10, 20, 30]) ∧
    ((ByteManipulation.mk 1 .xor 0xFF).apply [10, 20, 30]).length =
      ([10, 20, 30] : List ℕ).length ∧
    (∀ j, j < ([10, 20, 30] : List ℕ).length → j ≠ 1 →
      ((ByteManipulation.mk 1 .xor 0xFF).apply [10, 20, 30]).getD j 0 =
        ([10, 20, 30] : List ℕ).getD j 0) ∧
    ((∀ b ∈ ([10, 20, 30] : List ℕ), b < 256) →
      ∀ b ∈ (ByteManipulation.mk 1 .xor 0xFF).apply [10, 20, 30], b < 256) :=
  ⟨by decide, by decide,
    (byte_apply_frame (ByteManipulation.mk 1 .xor 0xFF) [10, 20, 30]
        (by decide) (by decide)).1,
    (byte_apply_frame (ByteManipulation.mk 1 .xor 0xFF) [10, 20, 30]
        (by decide) (by decide)).2.1,
    (byte_apply_frame (ByteManipulation.mk 1 .xor 0xFF) [10, 20, 30]
        (by decide) (by decide)).2.2.1,
    (byte_apply_frame (ByteManipulation.mk 1 .xor 0xFF) [10, 20, 30]
        (by decide) (by decide)).2.2.2⟩

/-! Settings path of the facade. -/

/-- Counterexample to C9 as stated: updating with `jitter_ms = -5` stores
the raw `-5` (below zero, not clamped) in the configuration, while the
running gateway's setter clamps it to `0`. -/
theorem update_settings_negative_jitter_not_clamped_in_config :
    (update_settings
        ⟨⟨0, 0, 1⟩, some ⟨0, 0, 1⟩, ⟨0, 0, 0⟩⟩ none none
        (some (-5))).config.jitter_ms = -5 ∧
    ((-5 : ℚ) < 0) ∧
    (update_settings
        ⟨⟨0, 0, 1⟩, some ⟨0, 0, 1⟩, ⟨0, 0, 0⟩⟩ none none
        (some (-5))).gateway = some ⟨0, 0, 0⟩ := by
  refine ⟨by decide, by norm_num, by decide⟩

/-- C9 amended: `update_settings` performs a partial update — every `None`
parameter leaves the corresponding setting unchanged in the stored
configuration and the running gateway, every provided value updates only
that setting, and a `jitter_ms` below zero is clamped to zero in the running
gateway only (the stored configuration keeps the raw value).  The logger
snapshot is never touched. -/
theorem update_settings_partial_update (s : ManagerState)
    (d l j : Option ℚ) :
    (update_settings s d l j).config.delay_ms = d.getD s.config.delay_ms ∧
    (update_settings s d l j).config.loss_pct = l.getD s.config.loss_pct ∧
    (update_settings s d l j).config.jitter_ms = j.getD s.config.jitter_ms ∧
    (update_settings s d l j).gateway =
      s.gateway.map (fun g =>
        { delay_ms := d.getD g.delay_ms
          loss_pct := l.getD g.loss_pct
          jitter_ms := (j.map (fun v => max 0 v)).getD g.jitter_ms }) ∧
    (update_settings s d l j).loggerConfig = s.loggerConfig := by
  rcases s with ⟨⟨cd, cl, cj⟩, gw, lc⟩
  cases d <;> cases l <;> cases j <;>
    rcases gw with _ | ⟨gd, gl, gj⟩ <;>
      simp [update_settings, Option.getD, Option.map]

/-- C4 is violated by the code: `GatewayManager.update_settings` contains no
call into `GatewayLogger.set_gateway_config`, so after changing the delay,
loss and jitter the logger's CSV snapshot still holds its previous values
(the defaults `0.0, 0.0, 0.0`), not the pushed triple that the claim (and
the logger's own usage documentation) expects. -/
theorem update_settings_does_not_push_logger_config :
    (update_settings
        ⟨⟨10, 0, 0⟩, some ⟨10, 0, 0⟩, ⟨0, 0, 0⟩⟩ (some 50) (some 5)
        (some 10)).loggerConfig = ⟨0, 0, 0⟩ ∧
    set_gateway_config 50 10 5 ≠ ⟨0, 0, 0⟩ := by
  refine ⟨by decide, by decide⟩

end CanGw
